import Mathlib

/-!
Verification of the binomial asset pricing repository.

The repository contains three notebooks implementing binomial-lattice option
pricers in Python/numpy: a European pricer (binomial_tree_slow / binomial_tree_fast),
an American pricer (american_slow_tree / american_fast_tree) and an up-and-out
barrier pricer (barrier_tree_slow / barrier_tree_fast).  Each exists in a
node-wise ("slow", explicit for-loops mutating an array in place) and a
layer-wise ("fast", vectorised numpy slicing) variant.

This file gives a shallow embedding of those six functions over the real
numbers.  Floating point arithmetic is idealised as exact real arithmetic and
numpy's exp as Real.exp.  The in-place inner loops of the slow variants are
embedded faithfully as folds that update a list element by element; the fast
variants are embedded as zipWith combinations of list slices, exactly mirroring
the numpy slice expressions.  Python's ZeroDivisionError raised by dt = T/N at
N = 0 is modelled by the wrappers returning an Option, none exactly at N = 0.
-/

set_option linter.unusedVariables false

namespace BinomialPricing

noncomputable section

/-- descending index list, np.arange(n-1, -1, -1) = [n-1, n-2, ..., 0]. -/
def descList (n : ℕ) : List ℕ := (List.range n).reverse

/-- in-place ascending update loop over a list: for j in range(0, m) do
C[j] := g j C[j] C[j+1], where the reads C[j] and C[j+1] see the entries not yet
updated by this loop (an out-of-range read yields 0, it is never used by the
pricers).  This is the mutation pattern of the inner loops of the slow trees. -/
def updLoop (g : ℕ → ℝ → ℝ → ℝ) (m : ℕ) (C : List ℝ) : List ℝ :=
  (List.range m).foldl (fun acc j => acc.set j (g j (acc.getD j 0) (acc.getD (j+1) 0))) C

/-- the list x, x*r, x*r^2, ..., of length n+1, built like the source loop
S[0] = x; S[j] = S[j-1]*r (binomial_tree_slow builds its maturity prices this
way with x = S0*d^N and r = u/d). -/
def stepMulList (x r : ℝ) : ℕ → List ℝ
  | 0 => [x]
  | n+1 => x :: stepMulList (x * r) r n

theorem descList_succ (n : ℕ) : descList (n+1) = n :: descList n := by
  simp [descList, List.range_succ]

theorem descList_length (n : ℕ) : (descList n).length = n := by
  simp [descList]

theorem stepMulList_eq_map (r : ℝ) :
    ∀ (n : ℕ) (x : ℝ), stepMulList x r n = (List.range (n+1)).map (fun j => x * r ^ j) := by
  intro n
  induction n with
  | zero => intro x; simp [stepMulList, List.range_succ]
  | succ n ih =>
    intro x
    rw [stepMulList, ih (x * r), List.range_succ_eq_map (n+1)]
    simp only [List.map_cons, List.map_map]
    congr 1
    · simp
    · exact List.map_congr_left (fun a _ => by simp [Function.comp, pow_succ]; ring)

theorem getD_range_map (f : ℕ → ℝ) (m j : ℕ) (h : j < m) :
    ((List.range m).map f).getD j 0 = f j := by
  have hlen : j < ((List.range m).map f).length := by simpa using h
  rw [List.getD_eq_getElem _ _ hlen]
  simp

theorem drop_getD (C : List ℝ) (m k : ℕ) : (C.drop m).getD k 0 = C.getD (m + k) 0 := by
  induction C generalizing m with
  | nil => simp
  | cons a C ih =>
    cases m with
    | zero => simp
    | succ m => simp [Nat.succ_add, ih m]

theorem set_append_len (A B : List ℝ) (x : ℝ) (m : ℕ) (hm : A.length = m) :
    (A ++ B).set m x = A ++ B.set 0 x := by
  subst hm
  induction A with
  | nil => simp
  | cons a A ih => simp [ih]

/-- structural normal form of the in-place update loop: the first m entries are
rewritten from the original entries (the ascending loop at index j reads only
indices j and j+1, which it has not yet written), the rest is untouched. -/
theorem updLoop_eq (g : ℕ → ℝ → ℝ → ℝ) (m : ℕ) (C : List ℝ) (h : m ≤ C.length) :
    updLoop g m C
      = (List.range m).map (fun j => g j (C.getD j 0) (C.getD (j+1) 0)) ++ C.drop m := by
  induction m with
  | zero => simp [updLoop]
  | succ m ih =>
    have hm : m ≤ C.length := Nat.le_of_succ_le h
    have hstep : updLoop g (m+1) C
        = (updLoop g m C).set m
            (g m ((updLoop g m C).getD m 0) ((updLoop g m C).getD (m+1) 0)) := by
      simp [updLoop, List.range_succ]
    rw [hstep, ih hm]
    have hlenA : ((List.range m).map (fun j => g j (C.getD j 0) (C.getD (j+1) 0))).length = m := by
      simp
    have hgm : (((List.range m).map (fun j => g j (C.getD j 0) (C.getD (j+1) 0)))
        ++ C.drop m).getD m 0 = C.getD m 0 := by
      rw [List.getD_append_right _ _ _ _ (by omega), hlenA, drop_getD]
      simp
    have hgm1 : (((List.range m).map (fun j => g j (C.getD j 0) (C.getD (j+1) 0)))
        ++ C.drop m).getD (m+1) 0 = C.getD (m+1) 0 := by
      rw [List.getD_append_right _ _ _ _ (by omega), hlenA, drop_getD]
      congr 1
      omega
    rw [hgm, hgm1]
    rw [set_append_len _ _ _ m hlenA]
    have hmlt : m < C.length := h
    rw [List.drop_eq_getElem_cons hmlt]
    simp only [List.set_cons_zero]
    rw [List.range_succ, List.map_append]
    simp only [List.map_cons, List.map_nil, List.append_assoc, List.singleton_append,
      List.cons_append, List.nil_append]

theorem updLoop_length (g : ℕ → ℝ → ℝ → ℝ) (m : ℕ) (C : List ℝ) (h : m ≤ C.length) :
    (updLoop g m C).length = C.length := by
  rw [updLoop_eq g m C h]
  simp
  omega

/-- a zipWith of the two slices C[0:m] and C[1:m+1] (as used by the vectorised
steps, where C has length m+1) written as a map over node indices. -/
theorem zipWith_take_tail (f : ℝ → ℝ → ℝ) :
    ∀ (m : ℕ) (C : List ℝ), C.length = m + 1 →
      List.zipWith f (C.take m) (C.tail.take m)
        = (List.range m).map (fun j => f (C.getD j 0) (C.getD (j+1) 0)) := by
  intro m
  induction m with
  | zero => intro C _; simp
  | succ m ih =>
    intro C hC
    match C with
    | a :: C2 =>
      match C2 with
      | b :: C3 =>
        have hC2 : (b :: C3).length = m + 1 := by simpa using hC
        have ihb := ih (b :: C3) hC2
        simp only [List.tail_cons] at ihb
        simp only [List.take_succ_cons, List.tail_cons, List.zipWith_cons_cons]
        rw [ihb, List.range_succ_eq_map m, List.map_cons, List.map_map]
        simp [Function.comp]

theorem zipWith_range_map (h : ℝ → ℝ → ℝ) :
    ∀ (m : ℕ) (f g : ℕ → ℝ),
      List.zipWith h ((List.range m).map f) ((List.range m).map g)
        = (List.range m).map (fun j => h (f j) (g j)) := by
  intro m
  induction m with
  | zero => intro f g; simp
  | succ m ih =>
    intro f g
    rw [List.range_succ, List.map_append, List.map_append, List.map_append]
    rw [List.zipWith_append _ _ _ _ _ (by simp)]
    rw [ih f g]
    simp

theorem map_range_congr (f g : ℕ → ℝ) (m : ℕ) (h : ∀ j, j < m → f j = g j) :
    (List.range m).map f = (List.range m).map g :=
  List.map_congr_left (fun a ha => h a (List.mem_range.mp ha))

/-- the state of a backward induction that starts from the terminal layer CN at
layer N and applies the step function F at layer indices N-1, N-2, ...: after k
applications the lattice is at layer N-k.  stateFuel is the induction in fuel
form; stateAt-style access is by taking k = N - i. -/
def stateFuel (F : List ℝ → ℕ → List ℝ) (CN : List ℝ) (N : ℕ) : ℕ → List ℝ
  | 0 => CN
  | k+1 => F (stateFuel F CN N k) (N - (k+1))

theorem stateFuel_shift (F : List ℝ → ℕ → List ℝ) (CN : List ℝ) (N : ℕ) :
    ∀ k, stateFuel F CN (N+1) (k+1) = stateFuel F (F CN N) N k := by
  intro k
  induction k with
  | zero => simp [stateFuel]
  | succ k ih =>
    show F (stateFuel F CN (N+1) (k+1)) ((N+1) - (k+2))
        = F (stateFuel F (F CN N) N k) (N - (k+1))
    rw [ih]
    congr 1
    omega

/-- the outer backward loop of every pricer, a fold over np.arange(N-1,-1,-1),
is the state after N backward steps. -/
theorem foldl_descList_eq (F : List ℝ → ℕ → List ℝ) :
    ∀ (N : ℕ) (CN : List ℝ), List.foldl F CN (descList N) = stateFuel F CN N N := by
  intro N
  induction N with
  | zero => intro CN; simp [descList, stateFuel]
  | succ N ih =>
    intro CN
    rw [descList_succ, List.foldl_cons, ih (F CN N), stateFuel_shift]

/-- downward transport of an invariant along the backward induction. -/
theorem stateFuel_invariant (F : List ℝ → ℕ → List ℝ) (CN : List ℝ) (N : ℕ)
    (P : ℕ → List ℝ → Prop) (hN : P N CN)
    (hstep : ∀ i C, i < N → P (i+1) C → P i (F C i)) :
    ∀ k, k ≤ N → P (N - k) (stateFuel F CN N k) := by
  intro k
  induction k with
  | zero => intro _; simpa [stateFuel] using hN
  | succ k ih =>
    intro hk
    have h2 := ih (by omega)
    rw [show N - k = (N - (k+1)) + 1 from by omega] at h2
    show P (N - (k+1)) (F (stateFuel F CN N k) (N - (k+1)))
    exact hstep _ _ (by omega) h2

/-!  The six pricers of the repository, embedded from the source.

Parameter names and order follow the Python functions.  Each slow/fast pair is
split into a terminal-layer construction, a backward step, a value-level core
(taking the derived constants q and disc as arguments) and a wrapper computing
dt = T/N, q = (exp(r*dt) - d)/(u - d) and disc = exp(-r*dt).  The wrapper
returns none exactly when N = 0, where the Python code raises ZeroDivisionError
computing dt = T/N.  -/

/-- terminal layer of binomial_tree_slow: S[0] = S0*d^N, S[j] = S[j-1]*u/d, then
C[j] = max(0, S[j]-K).  The opttype argument of the source is unused there. -/
def binomial_slow_terminal (K S0 u d : ℝ) (N : ℕ) : List ℝ :=
  (stepMulList (S0 * d ^ N) (u / d) N).map (fun s => max 0 (s - K))

/-- inner loop of binomial_tree_slow at outer index i:
for j in range(0,i): C[j] = disc*(q*C[j+1] + (1-q)*C[j]). -/
def binomial_slow_step (q disc : ℝ) (C : List ℝ) (i : ℕ) : List ℝ :=
  updLoop (fun _ cj cj1 => disc * (q * cj1 + (1 - q) * cj)) i C

/-- value core of binomial_tree_slow; the outer loop runs i = N, N-1, ..., 1. -/
def binomial_tree_slow_val (K S0 u d q disc : ℝ) (N : ℕ) : ℝ :=
  (((descList N).map (fun k => k + 1)).foldl (binomial_slow_step q disc)
    (binomial_slow_terminal K S0 u d N)).getD 0 0

/-- binomial_tree_slow(K,T,S0,r,N,u,d,opttype): European pricer, node-wise
loops; opttype is accepted but never read by the source.  none models the
ZeroDivisionError of dt = T/N at N = 0. -/
def binomial_tree_slow (K T S0 r : ℝ) (N : ℕ) (u d : ℝ) (opttype : String) : Option ℝ :=
  if N = 0 then none
  else some (binomial_tree_slow_val K S0 u d
    ((Real.exp (r * (T / N)) - d) / (u - d)) (Real.exp (-(r * (T / N)))) N)

/-- terminal layer of binomial_tree_fast:
C = S0 * d**arange(N,-1,-1) * u**arange(0,N+1); C = maximum(C - K, zeros). -/
def binomial_fast_terminal (K S0 u d : ℝ) (N : ℕ) : List ℝ :=
  ((List.range (N+1)).map (fun j => S0 * d ^ (N - j) * u ^ j)).map (fun c => max (c - K) 0)

/-- vectorised step of binomial_tree_fast at outer index i:
C = disc * (q * C[1:i+1] + (1-q) * C[0:i]). -/
def binomial_fast_step (q disc : ℝ) (C : List ℝ) (i : ℕ) : List ℝ :=
  List.zipWith (fun a b => disc * (q * b + (1 - q) * a)) (C.take i) (C.tail.take i)

/-- value core of binomial_tree_fast; the outer loop runs i = N, N-1, ..., 1. -/
def binomial_tree_fast_val (K S0 u d q disc : ℝ) (N : ℕ) : ℝ :=
  (((descList N).map (fun k => k + 1)).foldl (binomial_fast_step q disc)
    (binomial_fast_terminal K S0 u d N)).getD 0 0

/-- binomial_tree_fast(K,T,S0,r,N,u,d,opttype): European pricer, layer-wise
numpy slicing; opttype is accepted but never read by the source. -/
def binomial_tree_fast (K T S0 r : ℝ) (N : ℕ) (u d : ℝ) (opttype : String) : Option ℝ :=
  if N = 0 then none
  else some (binomial_tree_fast_val K S0 u d
    ((Real.exp (r * (T / N)) - d) / (u - d)) (Real.exp (-(r * (T / N)))) N)

/-- terminal layer of american_slow_tree: S[j] = S0*u^j*d^(N-j), then
C[j] = max(0, K-S[j]) if opttype == 'P' else max(0, S[j]-K). -/
def american_terminal_slow (K S0 u d : ℝ) (N : ℕ) (opttype : String) : List ℝ :=
  ((List.range (N+1)).map (fun j => S0 * u ^ j * d ^ (N - j))).map
    (fun s => if opttype = "P" then max 0 (K - s) else max 0 (s - K))

/-- inner loop of american_slow_tree at outer index i, for j in range(0,i+1):
S = S0*u^j*d^(i-j); C[j] = disc*(q*C[j+1]+(1-q)*C[j]); C[j] = max(C[j], K-S)
for a put, max(C[j], S-K) otherwise.  The two in-place writes to C[j] are
composed into one update. -/
def american_slow_step (K S0 u d q disc : ℝ) (opttype : String) (C : List ℝ) (i : ℕ) : List ℝ :=
  updLoop (fun j cj cj1 =>
    if opttype = "P" then
      max (disc * (q * cj1 + (1 - q) * cj)) (K - S0 * u ^ j * d ^ (i - j))
    else
      max (disc * (q * cj1 + (1 - q) * cj)) (S0 * u ^ j * d ^ (i - j) - K)) (i + 1) C

/-- value core of american_slow_tree; the outer loop runs i = N-1, ..., 0. -/
def american_slow_tree_val (K S0 u d q disc : ℝ) (N : ℕ) (opttype : String) : ℝ :=
  ((descList N).foldl (american_slow_step K S0 u d q disc opttype)
    (american_terminal_slow K S0 u d N opttype)).getD 0 0

/-- american_slow_tree(K,T,S0,r,N,u,d,opttype): American pricer, node-wise. -/
def american_slow_tree (K T S0 r : ℝ) (N : ℕ) (u d : ℝ) (opttype : String) : Option ℝ :=
  if N = 0 then none
  else some (american_slow_tree_val K S0 u d
    ((Real.exp (r * (T / N)) - d) / (u - d)) (Real.exp (-(r * (T / N)))) N opttype)

/-- terminal layer of american_fast_tree:
S = S0 * d**arange(N,-1,-1) * u**arange(0,N+1);
C = maximum(0, K - S) if opttype == 'P' else maximum(0, S - K). -/
def american_terminal_fast (K S0 u d : ℝ) (N : ℕ) (opttype : String) : List ℝ :=
  if opttype = "P" then
    ((List.range (N+1)).map (fun j => S0 * d ^ (N - j) * u ^ j)).map (fun s => max 0 (K - s))
  else
    ((List.range (N+1)).map (fun j => S0 * d ^ (N - j) * u ^ j)).map (fun s => max 0 (s - K))

/-- vectorised step of american_fast_tree at outer index i:
S = S0 * d**arange(i,-1,-1) * u**arange(0,i+1);
C[:i+1] = disc*(q*C[1:i+2] + (1-q)*C[0:i+1]); C = C[:-1];
C = maximum(C, K-S) for a put, maximum(C, S-K) otherwise. -/
def american_fast_step (K S0 u d q disc : ℝ) (opttype : String) (C : List ℝ) (i : ℕ) : List ℝ :=
  if opttype = "P" then
    List.zipWith (fun c s => max c (K - s))
      (List.zipWith (fun a b => disc * (q * b + (1 - q) * a)) (C.take (i+1)) (C.tail.take (i+1)))
      ((List.range (i+1)).map (fun j => S0 * d ^ (i - j) * u ^ j))
  else
    List.zipWith (fun c s => max c (s - K))
      (List.zipWith (fun a b => disc * (q * b + (1 - q) * a)) (C.take (i+1)) (C.tail.take (i+1)))
      ((List.range (i+1)).map (fun j => S0 * d ^ (i - j) * u ^ j))

/-- value core of american_fast_tree; the outer loop runs i = N-1, ..., 0. -/
def american_fast_tree_val (K S0 u d q disc : ℝ) (N : ℕ) (opttype : String) : ℝ :=
  ((descList N).foldl (american_fast_step K S0 u d q disc opttype)
    (american_terminal_fast K S0 u d N opttype)).getD 0 0

/-- american_fast_tree(K,T,S0,r,N,u,d,opttype): American pricer, layer-wise. -/
def american_fast_tree (K T S0 r : ℝ) (N : ℕ) (u d : ℝ) (opttype : String) : Option ℝ :=
  if N = 0 then none
  else some (american_fast_tree_val K S0 u d
    ((Real.exp (r * (T / N)) - d) / (u - d)) (Real.exp (-(r * (T / N)))) N opttype)

/-- terminal layer of barrier_tree_slow: S[j] = S0*u^j*d^(N-j);
C[j] = max(0, S[j]-K) if opttype == 'C' else max(0, K-S[j]); then the terminal
barrier check: for j in range(0,N+1): if S0*u^j*d^(N-j) >= H: C[j] = 0. -/
def barrier_terminal_slow (K S0 H u d : ℝ) (N : ℕ) (opttype : String) : List ℝ :=
  updLoop (fun j cj _ => if H ≤ S0 * u ^ j * d ^ (N - j) then 0 else cj) (N + 1)
    (((List.range (N+1)).map (fun j => S0 * u ^ j * d ^ (N - j))).map
      (fun s => if opttype = "C" then max 0 (s - K) else max 0 (K - s)))

/-- inner loop of barrier_tree_slow at outer index i, for j in range(0,i+1):
S = S0*u^j*d^(i-j); if S >= H: C[j] = 0 else C[j] = disc*(q*C[j+1]+(1-q)*C[j]). -/
def barrier_slow_step (S0 H u d q disc : ℝ) (C : List ℝ) (i : ℕ) : List ℝ :=
  updLoop (fun j cj cj1 =>
    if H ≤ S0 * u ^ j * d ^ (i - j) then 0
    else disc * (q * cj1 + (1 - q) * cj)) (i + 1) C

/-- value core of barrier_tree_slow; the outer loop runs i = N-1, ..., 0. -/
def barrier_tree_slow_val (K S0 H u d q disc : ℝ) (N : ℕ) (opttype : String) : ℝ :=
  ((descList N).foldl (barrier_slow_step S0 H u d q disc)
    (barrier_terminal_slow K S0 H u d N opttype)).getD 0 0

/-- barrier_tree_slow(K,T,S0,H,r,N,u,d,opttype): up-and-out pricer, node-wise. -/
def barrier_tree_slow (K T S0 H r : ℝ) (N : ℕ) (u d : ℝ) (opttype : String) : Option ℝ :=
  if N = 0 then none
  else some (barrier_tree_slow_val K S0 H u d
    ((Real.exp (r * (T / N)) - d) / (u - d)) (Real.exp (-(r * (T / N)))) N opttype)

/-- terminal layer of barrier_tree_fast:
S = S0 * d**arange(N,-1,-1) * u**arange(0,N+1);
C = maximum(S-K, 0) if opttype == 'C' else maximum(K-S, 0); then C[S >= H] = 0. -/
def barrier_terminal_fast (K S0 H u d : ℝ) (N : ℕ) (opttype : String) : List ℝ :=
  List.zipWith (fun c s => if H ≤ s then 0 else c)
    (if opttype = "C" then
      ((List.range (N+1)).map (fun j => S0 * d ^ (N - j) * u ^ j)).map (fun s => max (s - K) 0)
     else
      ((List.range (N+1)).map (fun j => S0 * d ^ (N - j) * u ^ j)).map (fun s => max (K - s) 0))
    ((List.range (N+1)).map (fun j => S0 * d ^ (N - j) * u ^ j))

/-- vectorised step of barrier_tree_fast at outer index i:
S = S0 * d**arange(i,-1,-1) * u**arange(0,i+1);
C[:i+1] = disc*(q*C[1:i+2] + (1-q)*C[0:i+1]); C = C[:-1]; C[S >= H] = 0.
Note the continuation is computed for every node and then overwritten with 0 on
knocked-out nodes. -/
def barrier_fast_step (S0 H u d q disc : ℝ) (C : List ℝ) (i : ℕ) : List ℝ :=
  List.zipWith (fun c s => if H ≤ s then 0 else c)
    (List.zipWith (fun a b => disc * (q * b + (1 - q) * a)) (C.take (i+1)) (C.tail.take (i+1)))
    ((List.range (i+1)).map (fun j => S0 * d ^ (i - j) * u ^ j))

/-- value core of barrier_tree_fast; the outer loop runs i = N-1, ..., 0. -/
def barrier_tree_fast_val (K S0 H u d q disc : ℝ) (N : ℕ) (opttype : String) : ℝ :=
  ((descList N).foldl (barrier_fast_step S0 H u d q disc)
    (barrier_terminal_fast K S0 H u d N opttype)).getD 0 0

/-- barrier_tree_fast(K,T,S0,H,r,N,u,d,opttype): up-and-out pricer, layer-wise. -/
def barrier_tree_fast (K T S0 H r : ℝ) (N : ℕ) (u d : ℝ) (opttype : String) : Option ℝ :=
  if N = 0 then none
  else some (barrier_tree_fast_val K S0 H u d
    ((Real.exp (r * (T / N)) - d) / (u - d)) (Real.exp (-(r * (T / N)))) N opttype)

/-!  Closed recursions for the node values.

euVal / amVal / barVal give the contract value at the node reached k backward
steps from maturity (layer i = N - k), node index j, as a two-index recursion.
They are proved below to coincide with the layer states of the corresponding
slow and fast loops.  -/

/-- European node value, k backward steps from maturity, node j. -/
def euVal (K S0 u d q disc : ℝ) (N : ℕ) : ℕ → ℕ → ℝ
  | 0, j => max 0 (S0 * u ^ j * d ^ (N - j) - K)
  | k+1, j => disc * (q * euVal K S0 u d q disc N k (j+1)
      + (1 - q) * euVal K S0 u d q disc N k j)

/-- American node value, k backward steps from maturity, node j. -/
def amVal (K S0 u d q disc : ℝ) (opttype : String) (N : ℕ) : ℕ → ℕ → ℝ
  | 0, j =>
      if opttype = "P" then max 0 (K - S0 * u ^ j * d ^ (N - j))
      else max 0 (S0 * u ^ j * d ^ (N - j) - K)
  | k+1, j =>
      if opttype = "P" then
        max (disc * (q * amVal K S0 u d q disc opttype N k (j+1)
              + (1 - q) * amVal K S0 u d q disc opttype N k j))
            (K - S0 * u ^ j * d ^ (N - (k+1) - j))
      else
        max (disc * (q * amVal K S0 u d q disc opttype N k (j+1)
              + (1 - q) * amVal K S0 u d q disc opttype N k j))
            (S0 * u ^ j * d ^ (N - (k+1) - j) - K)

/-- up-and-out barrier node value, k backward steps from maturity, node j. -/
def barVal (K S0 H u d q disc : ℝ) (opttype : String) (N : ℕ) : ℕ → ℕ → ℝ
  | 0, j =>
      if H ≤ S0 * u ^ j * d ^ (N - j) then 0
      else if opttype = "C" then max 0 (S0 * u ^ j * d ^ (N - j) - K)
      else max 0 (K - S0 * u ^ j * d ^ (N - j))
  | k+1, j =>
      if H ≤ S0 * u ^ j * d ^ (N - (k+1) - j) then 0
      else disc * (q * barVal K S0 H u d q disc opttype N k (j+1)
          + (1 - q) * barVal K S0 H u d q disc opttype N k j)

/-!  Layer states of the six loops.  binomialSlowState (etc.) at index i is the
working array of the corresponding source loop once backward induction has
reached layer i; index N is the terminal layer.  For the European loops, whose
outer index runs N..1, the loop body at outer index i produces layer i-1, which
matches a fold of (fun C k => step C (k+1)) over descList N.  -/

def binomialSlowState (K S0 u d q disc : ℝ) (N i : ℕ) : List ℝ :=
  stateFuel (fun C k => binomial_slow_step q disc C (k+1))
    (binomial_slow_terminal K S0 u d N) N (N - i)

def binomialFastState (K S0 u d q disc : ℝ) (N i : ℕ) : List ℝ :=
  stateFuel (fun C k => binomial_fast_step q disc C (k+1))
    (binomial_fast_terminal K S0 u d N) N (N - i)

def americanSlowState (K S0 u d q disc : ℝ) (N : ℕ) (opttype : String) (i : ℕ) : List ℝ :=
  stateFuel (american_slow_step K S0 u d q disc opttype)
    (american_terminal_slow K S0 u d N opttype) N (N - i)

def americanFastState (K S0 u d q disc : ℝ) (N : ℕ) (opttype : String) (i : ℕ) : List ℝ :=
  stateFuel (american_fast_step K S0 u d q disc opttype)
    (american_terminal_fast K S0 u d N opttype) N (N - i)

def barrierSlowState (K S0 H u d q disc : ℝ) (N : ℕ) (opttype : String) (i : ℕ) : List ℝ :=
  stateFuel (barrier_slow_step S0 H u d q disc)
    (barrier_terminal_slow K S0 H u d N opttype) N (N - i)

def barrierFastState (K S0 H u d q disc : ℝ) (N : ℕ) (opttype : String) (i : ℕ) : List ℝ :=
  stateFuel (barrier_fast_step S0 H u d q disc)
    (barrier_terminal_fast K S0 H u d N opttype) N (N - i)

theorem binomial_tree_slow_val_eq_state (K S0 u d q disc : ℝ) (N : ℕ) :
    binomial_tree_slow_val K S0 u d q disc N = (binomialSlowState K S0 u d q disc N 0).getD 0 0 := by
  unfold binomial_tree_slow_val binomialSlowState
  rw [List.foldl_map, foldl_descList_eq]
  simp

theorem binomial_tree_fast_val_eq_state (K S0 u d q disc : ℝ) (N : ℕ) :
    binomial_tree_fast_val K S0 u d q disc N = (binomialFastState K S0 u d q disc N 0).getD 0 0 := by
  unfold binomial_tree_fast_val binomialFastState
  rw [List.foldl_map, foldl_descList_eq]
  simp

theorem american_slow_tree_val_eq_state (K S0 u d q disc : ℝ) (N : ℕ) (opttype : String) :
    american_slow_tree_val K S0 u d q disc N opttype
      = (americanSlowState K S0 u d q disc N opttype 0).getD 0 0 := by
  unfold american_slow_tree_val americanSlowState
  rw [foldl_descList_eq]
  simp

theorem american_fast_tree_val_eq_state (K S0 u d q disc : ℝ) (N : ℕ) (opttype : String) :
    american_fast_tree_val K S0 u d q disc N opttype
      = (americanFastState K S0 u d q disc N opttype 0).getD 0 0 := by
  unfold american_fast_tree_val americanFastState
  rw [foldl_descList_eq]
  simp

theorem barrier_tree_slow_val_eq_state (K S0 H u d q disc : ℝ) (N : ℕ) (opttype : String) :
    barrier_tree_slow_val K S0 H u d q disc N opttype
      = (barrierSlowState K S0 H u d q disc N opttype 0).getD 0 0 := by
  unfold barrier_tree_slow_val barrierSlowState
  rw [foldl_descList_eq]
  simp

theorem barrier_tree_fast_val_eq_state (K S0 H u d q disc : ℝ) (N : ℕ) (opttype : String) :
    barrier_tree_fast_val K S0 H u d q disc N opttype
      = (barrierFastState K S0 H u d q disc N opttype 0).getD 0 0 := by
  unfold barrier_tree_fast_val barrierFastState
  rw [foldl_descList_eq]
  simp

/-!  Characterisation of the layer states by the closed node-value recursions. -/

theorem americanFastState_char (K S0 u d q disc : ℝ) (opttype : String) (N : ℕ) :
    ∀ i, i ≤ N → americanFastState K S0 u d q disc N opttype i
      = (List.range (i+1)).map (amVal K S0 u d q disc opttype N (N - i)) := by
  have hterm : american_terminal_fast K S0 u d N opttype
      = (List.range (N+1)).map (amVal K S0 u d q disc opttype N (N - N)) := by
    rw [Nat.sub_self]
    unfold american_terminal_fast
    by_cases h : opttype = "P"
    · rw [if_pos h, List.map_map]
      exact map_range_congr _ _ _ (fun j hj => by
        simp only [Function.comp, amVal, if_pos h]
        ring_nf)
    · rw [if_neg h, List.map_map]
      exact map_range_congr _ _ _ (fun j hj => by
        simp only [Function.comp, amVal, if_neg h]
        ring_nf)
  have hstep : ∀ i C, i < N →
      C = (List.range (i+1+1)).map (amVal K S0 u d q disc opttype N (N - (i+1))) →
      american_fast_step K S0 u d q disc opttype C i
        = (List.range (i+1)).map (amVal K S0 u d q disc opttype N (N - i)) := by
    intro i C hiN hC
    have hlen : C.length = (i+1) + 1 := by rw [hC]; simp
    subst hC
    unfold american_fast_step
    by_cases h : opttype = "P"
    · rw [if_pos h, zipWith_take_tail _ (i+1) _ hlen, zipWith_range_map]
      apply map_range_congr
      intro j hj
      rw [getD_range_map _ _ _ (by omega), getD_range_map _ _ _ (by omega)]
      rw [show N - i = N - (i+1) + 1 from by omega]
      simp only [amVal, if_pos h]
      rw [show N - (N - (i+1) + 1) = i from by omega]
      ring_nf
    · rw [if_neg h, zipWith_take_tail _ (i+1) _ hlen, zipWith_range_map]
      apply map_range_congr
      intro j hj
      rw [getD_range_map _ _ _ (by omega), getD_range_map _ _ _ (by omega)]
      rw [show N - i = N - (i+1) + 1 from by omega]
      simp only [amVal, if_neg h]
      rw [show N - (N - (i+1) + 1) = i from by omega]
      ring_nf
  intro i hi
  have key := stateFuel_invariant _ _ N
    (fun m C => C = (List.range (m+1)).map (amVal K S0 u d q disc opttype N (N - m)))
    hterm hstep (N - i) (by omega)
  rw [show N - (N - i) = i from by omega] at key
  exact key

theorem americanSlowState_char (K S0 u d q disc : ℝ) (opttype : String) (N : ℕ) :
    ∀ i, i ≤ N → (americanSlowState K S0 u d q disc N opttype i).length = N + 1
      ∧ ∀ j, j ≤ i → (americanSlowState K S0 u d q disc N opttype i).getD j 0
          = amVal K S0 u d q disc opttype N (N - i) j := by
  have hterm : (american_terminal_slow K S0 u d N opttype).length = N + 1
      ∧ ∀ j, j ≤ N → (american_terminal_slow K S0 u d N opttype).getD j 0
          = amVal K S0 u d q disc opttype N (N - N) j := by
    constructor
    · simp [american_terminal_slow]
    · intro j hj
      rw [Nat.sub_self]
      unfold american_terminal_slow
      rw [List.map_map, getD_range_map _ _ _ (by omega)]
      simp only [Function.comp, amVal]
  have hstep : ∀ i C, i < N →
      (C.length = N + 1 ∧ ∀ j, j ≤ i+1 → C.getD j 0
          = amVal K S0 u d q disc opttype N (N - (i+1)) j) →
      ((american_slow_step K S0 u d q disc opttype C i).length = N + 1
        ∧ ∀ j, j ≤ i → (american_slow_step K S0 u d q disc opttype C i).getD j 0
            = amVal K S0 u d q disc opttype N (N - i) j) := by
    intro i C hiN hP
    obtain ⟨hlen, hget⟩ := hP
    have hm : i + 1 ≤ C.length := by omega
    constructor
    · rw [american_slow_step, updLoop_length _ _ _ hm, hlen]
    · intro j hj
      rw [american_slow_step, updLoop_eq _ _ _ hm]
      rw [List.getD_append _ _ _ _ (by simp; omega), getD_range_map _ _ _ (by omega)]
      rw [hget j (by omega), hget (j+1) (by omega)]
      rw [show N - i = N - (i+1) + 1 from by omega]
      simp only [amVal]
      rw [show N - (N - (i+1) + 1) = i from by omega]
  intro i hi
  have key := stateFuel_invariant _ _ N
    (fun m C => C.length = N + 1 ∧ ∀ j, j ≤ m → C.getD j 0
        = amVal K S0 u d q disc opttype N (N - m) j)
    hterm hstep (N - i) (by omega)
  rw [show N - (N - i) = i from by omega] at key
  exact key

theorem barrierFastState_char (K S0 H u d q disc : ℝ) (opttype : String) (N : ℕ) :
    ∀ i, i ≤ N → barrierFastState K S0 H u d q disc N opttype i
      = (List.range (i+1)).map (barVal K S0 H u d q disc opttype N (N - i)) := by
  have hterm : barrier_terminal_fast K S0 H u d N opttype
      = (List.range (N+1)).map (barVal K S0 H u d q disc opttype N (N - N)) := by
    rw [Nat.sub_self]
    unfold barrier_terminal_fast
    by_cases h : opttype = "C"
    · rw [if_pos h, List.map_map, zipWith_range_map]
      apply map_range_congr
      intro j hj
      have hprod : S0 * d ^ (N - j) * u ^ j = S0 * u ^ j * d ^ (N - j) := by ring
      simp only [Function.comp, hprod, barVal, h]
      rw [max_comm]
      simp
    · rw [if_neg h, List.map_map, zipWith_range_map]
      apply map_range_congr
      intro j hj
      have hprod : S0 * d ^ (N - j) * u ^ j = S0 * u ^ j * d ^ (N - j) := by ring
      simp only [Function.comp, hprod, barVal, if_neg h]
      rw [max_comm]
  have hstep : ∀ i C, i < N →
      C = (List.range (i+1+1)).map (barVal K S0 H u d q disc opttype N (N - (i+1))) →
      barrier_fast_step S0 H u d q disc C i
        = (List.range (i+1)).map (barVal K S0 H u d q disc opttype N (N - i)) := by
    intro i C hiN hC
    have hlen : C.length = (i+1) + 1 := by rw [hC]; simp
    subst hC
    unfold barrier_fast_step
    rw [zipWith_take_tail _ (i+1) _ hlen, zipWith_range_map]
    apply map_range_congr
    intro j hj
    rw [getD_range_map _ _ _ (by omega), getD_range_map _ _ _ (by omega)]
    have hprod : S0 * d ^ (i - j) * u ^ j = S0 * u ^ j * d ^ (i - j) := by ring
    rw [show N - i = N - (i+1) + 1 from by omega]
    simp only [barVal, hprod]
    rw [show N - (N - (i+1) + 1) = i from by omega]
  intro i hi
  have key := stateFuel_invariant _ _ N
    (fun m C => C = (List.range (m+1)).map (barVal K S0 H u d q disc opttype N (N - m)))
    hterm hstep (N - i) (by omega)
  rw [show N - (N - i) = i from by omega] at key
  exact key

theorem barrierSlowState_char (K S0 H u d q disc : ℝ) (opttype : String) (N : ℕ) :
    ∀ i, i ≤ N → (barrierSlowState K S0 H u d q disc N opttype i).length = N + 1
      ∧ ∀ j, j ≤ i → (barrierSlowState K S0 H u d q disc N opttype i).getD j 0
          = barVal K S0 H u d q disc opttype N (N - i) j := by
  have hterm : (barrier_terminal_slow K S0 H u d N opttype).length = N + 1
      ∧ ∀ j, j ≤ N → (barrier_terminal_slow K S0 H u d N opttype).getD j 0
          = barVal K S0 H u d q disc opttype N (N - N) j := by
    have hlen0 : (((List.range (N+1)).map (fun j => S0 * u ^ j * d ^ (N - j))).map
        (fun s => if opttype = "C" then max 0 (s - K) else max 0 (K - s))).length = N + 1 := by
      simp
    constructor
    · rw [barrier_terminal_slow, updLoop_length _ _ _ (by omega), hlen0]
    · intro j hj
      rw [Nat.sub_self, barrier_terminal_slow, updLoop_eq _ _ _ (by omega)]
      rw [List.getD_append _ _ _ _ (by simp; omega), getD_range_map _ _ _ (by omega)]
      rw [List.map_map, getD_range_map _ _ _ (by omega)]
      simp only [Function.comp, barVal]
  have hstep : ∀ i C, i < N →
      (C.length = N + 1 ∧ ∀ j, j ≤ i+1 → C.getD j 0
          = barVal K S0 H u d q disc opttype N (N - (i+1)) j) →
      ((barrier_slow_step S0 H u d q disc C i).length = N + 1
        ∧ ∀ j, j ≤ i → (barrier_slow_step S0 H u d q disc C i).getD j 0
            = barVal K S0 H u d q disc opttype N (N - i) j) := by
    intro i C hiN hP
    obtain ⟨hlen, hget⟩ := hP
    have hm : i + 1 ≤ C.length := by omega
    constructor
    · rw [barrier_slow_step, updLoop_length _ _ _ hm, hlen]
    · intro j hj
      rw [barrier_slow_step, updLoop_eq _ _ _ hm]
      rw [List.getD_append _ _ _ _ (by simp; omega), getD_range_map _ _ _ (by omega)]
      rw [hget j (by omega), hget (j+1) (by omega)]
      rw [show N - i = N - (i+1) + 1 from by omega]
      simp only [barVal]
      rw [show N - (N - (i+1) + 1) = i from by omega]
  intro i hi
  have key := stateFuel_invariant _ _ N
    (fun m C => C.length = N + 1 ∧ ∀ j, j ≤ m → C.getD j 0
        = barVal K S0 H u d q disc opttype N (N - m) j)
    hterm hstep (N - i) (by omega)
  rw [show N - (N - i) = i from by omega] at key
  exact key

theorem pow_ratio_eq (S0 u d : ℝ) (hd : d ≠ 0) (j N : ℕ) (h : j ≤ N) :
    S0 * d ^ N * (u / d) ^ j = S0 * u ^ j * d ^ (N - j) := by
  have hdj : (d : ℝ) ^ j ≠ 0 := pow_ne_zero _ hd
  have hN : d ^ (N - j) * d ^ j = d ^ N := by
    rw [← pow_add, Nat.sub_add_cancel h]
  rw [div_pow, ← hN]
  field_simp
  ring

theorem binomialSlowState_char (K S0 u d q disc : ℝ) (N : ℕ) (hd : d ≠ 0) :
    ∀ i, i ≤ N → (binomialSlowState K S0 u d q disc N i).length = N + 1
      ∧ ∀ j, j ≤ i → (binomialSlowState K S0 u d q disc N i).getD j 0
          = euVal K S0 u d q disc N (N - i) j := by
  have hterm : (binomial_slow_terminal K S0 u d N).length = N + 1
      ∧ ∀ j, j ≤ N → (binomial_slow_terminal K S0 u d N).getD j 0
          = euVal K S0 u d q disc N (N - N) j := by
    constructor
    · rw [binomial_slow_terminal, stepMulList_eq_map]
      simp
    · intro j hj
      rw [Nat.sub_self, binomial_slow_terminal, stepMulList_eq_map, List.map_map]
      rw [getD_range_map _ _ _ (by omega)]
      simp only [Function.comp, euVal]
      rw [pow_ratio_eq S0 u d hd j N (by omega)]
  have hstep : ∀ i C, i < N →
      (C.length = N + 1 ∧ ∀ j, j ≤ i+1 → C.getD j 0 = euVal K S0 u d q disc N (N - (i+1)) j) →
      ((binomial_slow_step q disc C (i+1)).length = N + 1
        ∧ ∀ j, j ≤ i → (binomial_slow_step q disc C (i+1)).getD j 0
            = euVal K S0 u d q disc N (N - i) j) := by
    intro i C hiN hP
    obtain ⟨hlen, hget⟩ := hP
    have hm : i + 1 ≤ C.length := by omega
    constructor
    · rw [binomial_slow_step, updLoop_length _ _ _ hm, hlen]
    · intro j hj
      rw [binomial_slow_step, updLoop_eq _ _ _ hm]
      rw [List.getD_append _ _ _ _ (by simp; omega), getD_range_map _ _ _ (by omega)]
      rw [hget j (by omega), hget (j+1) (by omega)]
      rw [show N - i = N - (i+1) + 1 from by omega]
      simp only [euVal]
  intro i hi
  have key := stateFuel_invariant _ _ N
    (fun m C => C.length = N + 1 ∧ ∀ j, j ≤ m → C.getD j 0
        = euVal K S0 u d q disc N (N - m) j)
    hterm hstep (N - i) (by omega)
  rw [show N - (N - i) = i from by omega] at key
  exact key

theorem binomialFastState_char (K S0 u d q disc : ℝ) (N : ℕ) :
    ∀ i, i ≤ N → binomialFastState K S0 u d q disc N i
      = (List.range (i+1)).map (euVal K S0 u d q disc N (N - i)) := by
  have hterm : binomial_fast_terminal K S0 u d N
      = (List.range (N+1)).map (euVal K S0 u d q disc N (N - N)) := by
    rw [Nat.sub_self]
    unfold binomial_fast_terminal
    rw [List.map_map]
    apply map_range_congr
    intro j hj
    simp only [Function.comp, euVal]
    rw [max_comm]
    ring_nf
  have hstep : ∀ i C, i < N →
      C = (List.range (i+1+1)).map (euVal K S0 u d q disc N (N - (i+1))) →
      binomial_fast_step q disc C (i+1)
        = (List.range (i+1)).map (euVal K S0 u d q disc N (N - i)) := by
    intro i C hiN hC
    have hlen : C.length = (i+1) + 1 := by rw [hC]; simp
    subst hC
    unfold binomial_fast_step
    rw [zipWith_take_tail _ (i+1) _ hlen]
    apply map_range_congr
    intro j hj
    rw [getD_range_map _ _ _ (by omega), getD_range_map _ _ _ (by omega)]
    rw [show N - i = N - (i+1) + 1 from by omega]
    simp only [euVal]
  intro i hi
  have key := stateFuel_invariant _ _ N
    (fun m C => C = (List.range (m+1)).map (euVal K S0 u d q disc N (N - m)))
    hterm hstep (N - i) (by omega)
  rw [show N - (N - i) = i from by omega] at key
  exact key

/-!  Root values of the six loops. -/

theorem binomial_tree_slow_val_root (K S0 u d q disc : ℝ) (N : ℕ) (hd : d ≠ 0) :
    binomial_tree_slow_val K S0 u d q disc N = euVal K S0 u d q disc N N 0 := by
  rw [binomial_tree_slow_val_eq_state]
  rw [(binomialSlowState_char K S0 u d q disc N hd 0 (by omega)).2 0 (by omega)]
  norm_num

theorem binomial_tree_fast_val_root (K S0 u d q disc : ℝ) (N : ℕ) :
    binomial_tree_fast_val K S0 u d q disc N = euVal K S0 u d q disc N N 0 := by
  rw [binomial_tree_fast_val_eq_state, binomialFastState_char K S0 u d q disc N 0 (by omega)]
  rw [getD_range_map _ _ _ (by omega)]
  norm_num

theorem american_slow_tree_val_root (K S0 u d q disc : ℝ) (N : ℕ) (opttype : String) :
    american_slow_tree_val K S0 u d q disc N opttype
      = amVal K S0 u d q disc opttype N N 0 := by
  rw [american_slow_tree_val_eq_state]
  rw [(americanSlowState_char K S0 u d q disc opttype N 0 (by omega)).2 0 (by omega)]
  norm_num

theorem american_fast_tree_val_root (K S0 u d q disc : ℝ) (N : ℕ) (opttype : String) :
    american_fast_tree_val K S0 u d q disc N opttype
      = amVal K S0 u d q disc opttype N N 0 := by
  rw [american_fast_tree_val_eq_state,
    americanFastState_char K S0 u d q disc opttype N 0 (by omega)]
  rw [getD_range_map _ _ _ (by omega)]
  norm_num

theorem barrier_tree_slow_val_root (K S0 H u d q disc : ℝ) (N : ℕ) (opttype : String) :
    barrier_tree_slow_val K S0 H u d q disc N opttype
      = barVal K S0 H u d q disc opttype N N 0 := by
  rw [barrier_tree_slow_val_eq_state]
  rw [(barrierSlowState_char K S0 H u d q disc opttype N 0 (by omega)).2 0 (by omega)]
  norm_num

theorem barrier_tree_fast_val_root (K S0 H u d q disc : ℝ) (N : ℕ) (opttype : String) :
    barrier_tree_fast_val K S0 H u d q disc N opttype
      = barVal K S0 H u d q disc opttype N N 0 := by
  rw [barrier_tree_fast_val_eq_state,
    barrierFastState_char K S0 H u d q disc opttype N 0 (by omega)]
  rw [getD_range_map _ _ _ (by omega)]
  norm_num

/-!  Sign, monotonicity and comparison lemmas for the node values. -/

theorem contVal_nonneg (q disc a b : ℝ) (hq0 : 0 ≤ q) (hq1 : q ≤ 1) (hdisc : 0 ≤ disc)
    (ha : 0 ≤ a) (hb : 0 ≤ b) : 0 ≤ disc * (q * b + (1 - q) * a) :=
  mul_nonneg hdisc (add_nonneg (mul_nonneg hq0 hb) (mul_nonneg (by linarith) ha))

theorem contVal_mono (q disc a b a2 b2 : ℝ) (hq0 : 0 ≤ q) (hq1 : q ≤ 1) (hdisc : 0 ≤ disc)
    (ha : a ≤ a2) (hb : b ≤ b2) :
    disc * (q * b + (1 - q) * a) ≤ disc * (q * b2 + (1 - q) * a2) :=
  mul_le_mul_of_nonneg_left
    (add_le_add (mul_le_mul_of_nonneg_left hb hq0)
      (mul_le_mul_of_nonneg_left ha (by linarith))) hdisc

theorem euVal_nonneg (K S0 u d q disc : ℝ) (N : ℕ)
    (hq0 : 0 ≤ q) (hq1 : q ≤ 1) (hdisc : 0 ≤ disc) :
    ∀ k j, 0 ≤ euVal K S0 u d q disc N k j := by
  intro k
  induction k with
  | zero => intro j; simp only [euVal]; exact le_max_left 0 _
  | succ k ih =>
    intro j
    simp only [euVal]
    exact contVal_nonneg _ _ _ _ hq0 hq1 hdisc (ih j) (ih (j+1))

theorem amVal_nonneg (K S0 u d q disc : ℝ) (opttype : String) (N : ℕ)
    (hq0 : 0 ≤ q) (hq1 : q ≤ 1) (hdisc : 0 ≤ disc) :
    ∀ k j, 0 ≤ amVal K S0 u d q disc opttype N k j := by
  intro k
  induction k with
  | zero =>
    intro j
    simp only [amVal]
    split_ifs <;> exact le_max_left 0 _
  | succ k ih =>
    intro j
    simp only [amVal]
    split_ifs <;>
      exact le_max_of_le_left (contVal_nonneg _ _ _ _ hq0 hq1 hdisc (ih j) (ih (j+1)))

theorem barVal_nonneg (K S0 H u d q disc : ℝ) (opttype : String) (N : ℕ)
    (hq0 : 0 ≤ q) (hq1 : q ≤ 1) (hdisc : 0 ≤ disc) :
    ∀ k j, 0 ≤ barVal K S0 H u d q disc opttype N k j := by
  intro k
  induction k with
  | zero =>
    intro j
    simp only [barVal]
    split_ifs
    · exact le_rfl
    · exact le_max_left 0 _
    · exact le_max_left 0 _
  | succ k ih =>
    intro j
    simp only [barVal]
    split_ifs
    · exact le_rfl
    · exact contVal_nonneg _ _ _ _ hq0 hq1 hdisc (ih j) (ih (j+1))

theorem euVal_le_amVal (K S0 u d q disc : ℝ) (opttype : String) (N : ℕ)
    (hq0 : 0 ≤ q) (hq1 : q ≤ 1) (hdisc : 0 ≤ disc) (hopt : opttype ≠ "P") :
    ∀ k j, euVal K S0 u d q disc N k j ≤ amVal K S0 u d q disc opttype N k j := by
  intro k
  induction k with
  | zero => intro j; simp only [euVal, amVal, if_neg hopt]; exact le_rfl
  | succ k ih =>
    intro j
    simp only [euVal, amVal, if_neg hopt]
    exact le_trans
      (contVal_mono _ _ _ _ _ _ hq0 hq1 hdisc (ih j) (ih (j+1))) (le_max_left _ _)

theorem barVal_le_euVal (K S0 H u d q disc : ℝ) (N : ℕ)
    (hq0 : 0 ≤ q) (hq1 : q ≤ 1) (hdisc : 0 ≤ disc) :
    ∀ k j, barVal K S0 H u d q disc ("C") N k j ≤ euVal K S0 u d q disc N k j := by
  intro k
  induction k with
  | zero =>
    intro j
    simp only [barVal, euVal, if_pos rfl]
    split_ifs
    · exact le_max_left 0 _
    · exact le_rfl
  | succ k ih =>
    intro j
    simp only [barVal, euVal]
    split_ifs
    · exact contVal_nonneg _ _ _ _ hq0 hq1 hdisc
        (euVal_nonneg K S0 u d q disc N hq0 hq1 hdisc k j)
        (euVal_nonneg K S0 u d q disc N hq0 hq1 hdisc k (j+1))
    · exact contVal_mono _ _ _ _ _ _ hq0 hq1 hdisc (ih j) (ih (j+1))

theorem max_clamp (a b : ℝ) (ha : 0 ≤ a) : max a b = max a (max 0 b) := by
  rcases le_total b 0 with h | h
  · rw [max_eq_left (h.trans ha), max_eq_left h, max_eq_left ha]
  · rw [max_eq_right h]

/-!  Option-kind dispatch lemmas: the sources compare opttype against a single
character, so every value other than that character falls through to the other
branch.  -/

theorem american_terminal_slow_opt (K S0 u d : ℝ) (N : ℕ) (opt : String) (h : opt ≠ "P") :
    american_terminal_slow K S0 u d N opt = american_terminal_slow K S0 u d N ("C") := by
  unfold american_terminal_slow
  simp [h, show ("C":String) ≠ "P" from by decide]

theorem american_slow_step_opt (K S0 u d q disc : ℝ) (opt : String) (h : opt ≠ "P") :
    american_slow_step K S0 u d q disc opt = american_slow_step K S0 u d q disc ("C") := by
  funext C i
  unfold american_slow_step
  simp [h, show ("C":String) ≠ "P" from by decide]

theorem american_terminal_fast_opt (K S0 u d : ℝ) (N : ℕ) (opt : String) (h : opt ≠ "P") :
    american_terminal_fast K S0 u d N opt = american_terminal_fast K S0 u d N ("C") := by
  unfold american_terminal_fast
  simp [h, show ("C":String) ≠ "P" from by decide]

theorem american_fast_step_opt (K S0 u d q disc : ℝ) (opt : String) (h : opt ≠ "P") :
    american_fast_step K S0 u d q disc opt = american_fast_step K S0 u d q disc ("C") := by
  funext C i
  unfold american_fast_step
  simp [h, show ("C":String) ≠ "P" from by decide]

theorem barrier_terminal_slow_opt (K S0 H u d : ℝ) (N : ℕ) (opt : String) (h : opt ≠ "C") :
    barrier_terminal_slow K S0 H u d N opt = barrier_terminal_slow K S0 H u d N ("P") := by
  unfold barrier_terminal_slow
  simp [h, show ("P":String) ≠ "C" from by decide]

theorem american_slow_tree_val_opt (K S0 u d q disc : ℝ) (N : ℕ) (opt : String) (h : opt ≠ "P") :
    american_slow_tree_val K S0 u d q disc N opt
      = american_slow_tree_val K S0 u d q disc N ("C") := by
  unfold american_slow_tree_val
  rw [american_terminal_slow_opt K S0 u d N opt h, american_slow_step_opt K S0 u d q disc opt h]

theorem american_fast_tree_val_opt (K S0 u d q disc : ℝ) (N : ℕ) (opt : String) (h : opt ≠ "P") :
    american_fast_tree_val K S0 u d q disc N opt
      = american_fast_tree_val K S0 u d q disc N ("C") := by
  unfold american_fast_tree_val
  rw [american_terminal_fast_opt K S0 u d N opt h, american_fast_step_opt K S0 u d q disc opt h]

theorem barrier_tree_slow_val_opt (K S0 H u d q disc : ℝ) (N : ℕ) (opt : String) (h : opt ≠ "C") :
    barrier_tree_slow_val K S0 H u d q disc N opt
      = barrier_tree_slow_val K S0 H u d q disc N ("P") := by
  unfold barrier_tree_slow_val
  rw [barrier_terminal_slow_opt K S0 H u d N opt h]

/-- The European pricer as the spec describes it (spec side of claim C8):
identical to binomial_tree_slow except that the terminal payoff dispatches on
the option kind, max(S-K,0) for a Call and max(K-S,0) for a Put.  This
definition follows the spec's words; binomial_tree_slow in the source never
reads opttype and applies the call payoff unconditionally. -/
def binomial_slow_spec_terminal (K S0 u d : ℝ) (N : ℕ) (opttype : String) : List ℝ :=
  (stepMulList (S0 * d ^ N) (u / d) N).map
    (fun s => if opttype = "P" then max (K - s) 0 else max (s - K) 0)

/-- value core of the spec-described European pricer. -/
def binomial_tree_slow_spec_val (K S0 u d q disc : ℝ) (N : ℕ) (opttype : String) : ℝ :=
  (((descList N).map (fun k => k + 1)).foldl (binomial_slow_step q disc)
    (binomial_slow_spec_terminal K S0 u d N opttype)).getD 0 0

/-- the spec-described European pricer (spec side of claim C8). -/
def binomial_tree_slow_spec (K T S0 r : ℝ) (N : ℕ) (u d : ℝ) (opttype : String) : Option ℝ :=
  if N = 0 then none
  else some (binomial_tree_slow_spec_val K S0 u d
    ((Real.exp (r * (T / N)) - d) / (u - d)) (Real.exp (-(r * (T / N)))) N opttype)

theorem spec_terminal_call (K S0 u d : ℝ) (N : ℕ) :
    binomial_slow_spec_terminal K S0 u d N ("C") = binomial_slow_terminal K S0 u d N := by
  unfold binomial_slow_spec_terminal binomial_slow_terminal
  apply List.map_congr_left
  intro a ha
  rw [if_neg (by decide : ¬("C":String) = "P"), max_comm]

theorem spec_val_call (K S0 u d q disc : ℝ) (N : ℕ) :
    binomial_tree_slow_spec_val K S0 u d q disc N ("C") = binomial_tree_slow_val K S0 u d q disc N := by
  unfold binomial_tree_slow_spec_val binomial_tree_slow_val
  rw [spec_terminal_call]

/-!  Claim theorems. -/

/-- C1: for every parameter set with N ≥ 1 (and a nonzero down factor, so that
the maturity loop S[j] = S[j-1]*u/d of the slow European pricer is meaningful),
the node-wise (slow) and layer-wise (fast) pricers of the same variant return
the same root price.  In this exact-arithmetic model the agreement is exact
equality, stronger than the small relative tolerance the claim allows. -/
theorem C1_slow_fast_agree (K T S0 H r : ℝ) (N : ℕ) (u d : ℝ) (opta optb optc : String)
    (hN : 1 ≤ N) (hd : d ≠ 0) :
    binomial_tree_slow K T S0 r N u d opta = binomial_tree_fast K T S0 r N u d opta
    ∧ american_slow_tree K T S0 r N u d optb = american_fast_tree K T S0 r N u d optb
    ∧ barrier_tree_slow K T S0 H r N u d optc = barrier_tree_fast K T S0 H r N u d optc := by
  refine ⟨?_, ?_, ?_⟩
  · unfold binomial_tree_slow binomial_tree_fast
    rw [if_neg (by omega), if_neg (by omega)]
    exact congrArg some (by
      rw [binomial_tree_slow_val_root _ _ _ _ _ _ _ hd, binomial_tree_fast_val_root])
  · unfold american_slow_tree american_fast_tree
    rw [if_neg (by omega), if_neg (by omega)]
    exact congrArg some (by
      rw [american_slow_tree_val_root, american_fast_tree_val_root])
  · unfold barrier_tree_slow barrier_tree_fast
    rw [if_neg (by omega), if_neg (by omega)]
    exact congrArg some (by
      rw [barrier_tree_slow_val_root, barrier_tree_fast_val_root])

/-- C2: in both American pricers, under the documented arbitrage-free
precondition 0 < q < 1 on the derived risk-neutral probability (q and disc are
the constants the source computes from r, T, N, u, d), every intermediate node
(i,j) carries exactly max(hold, exercise(S)) where hold is the discounted
continuation read from layer i+1 and exercise is the clamped terminal payoff
max(K-S,0) for a put, max(S-K,0) otherwise. -/
theorem C2_american_node_value (K T S0 r u d q disc : ℝ) (opttype : String) (N i j : ℕ)
    (hq : q = (Real.exp (r * (T / N)) - d) / (u - d))
    (hdisc : disc = Real.exp (-(r * (T / N))))
    (hq0 : 0 < q) (hq1 : q < 1) (hiN : i < N) (hji : j ≤ i) :
    (americanSlowState K S0 u d q disc N opttype i).getD j 0
      = max (disc * (q * (americanSlowState K S0 u d q disc N opttype (i+1)).getD (j+1) 0
          + (1 - q) * (americanSlowState K S0 u d q disc N opttype (i+1)).getD j 0))
        (if opttype = "P" then max 0 (K - S0 * u ^ j * d ^ (i - j))
         else max 0 (S0 * u ^ j * d ^ (i - j) - K))
    ∧ (americanFastState K S0 u d q disc N opttype i).getD j 0
      = max (disc * (q * (americanFastState K S0 u d q disc N opttype (i+1)).getD (j+1) 0
          + (1 - q) * (americanFastState K S0 u d q disc N opttype (i+1)).getD j 0))
        (if opttype = "P" then max 0 (K - S0 * u ^ j * d ^ (i - j))
         else max 0 (S0 * u ^ j * d ^ (i - j) - K)) := by
  have hd0 : 0 ≤ disc := by rw [hdisc]; exact (Real.exp_pos _).le
  have hnn := amVal_nonneg K S0 u d q disc opttype N hq0.le hq1.le hd0
  have hkey : amVal K S0 u d q disc opttype N (N - i) j
      = max (disc * (q * amVal K S0 u d q disc opttype N (N - (i+1)) (j+1)
          + (1 - q) * amVal K S0 u d q disc opttype N (N - (i+1)) j))
        (if opttype = "P" then max 0 (K - S0 * u ^ j * d ^ (i - j))
         else max 0 (S0 * u ^ j * d ^ (i - j) - K)) := by
    have hh : 0 ≤ disc * (q * amVal K S0 u d q disc opttype N (N - (i+1)) (j+1)
        + (1 - q) * amVal K S0 u d q disc opttype N (N - (i+1)) j) :=
      contVal_nonneg _ _ _ _ hq0.le hq1.le hd0 (hnn _ _) (hnn _ _)
    rw [show N - i = N - (i+1) + 1 from by omega]
    simp only [amVal]
    rw [show N - (N - (i+1) + 1) = i from by omega]
    split_ifs
    · exact max_clamp _ _ hh
    · exact max_clamp _ _ hh
  constructor
  · rw [(americanSlowState_char K S0 u d q disc opttype N i (by omega)).2 j (by omega),
      (americanSlowState_char K S0 u d q disc opttype N (i+1) (by omega)).2 (j+1) (by omega),
      (americanSlowState_char K S0 u d q disc opttype N (i+1) (by omega)).2 j (by omega)]
    exact hkey
  · rw [americanFastState_char K S0 u d q disc opttype N i (by omega),
      americanFastState_char K S0 u d q disc opttype N (i+1) (by omega),
      getD_range_map _ _ _ (by omega), getD_range_map _ _ _ (by omega),
      getD_range_map _ _ _ (by omega)]
    exact hkey

/-- C3: in both up-and-out barrier pricers, for any parameters whatsoever,
every intermediate node (i,j) carries 0 when its asset price S0*u^j*d^(i-j)
has reached the barrier, and otherwise exactly the plain discounted
expectation of the two layer-(i+1) values, with no early-exercise term.  The
node-wise strategy skips the continuation on knocked-out nodes while the
layer-wise one computes it and then overwrites it with 0; both produce these
same node values, which is all the value-level semantics can distinguish. -/
theorem C3_barrier_node_knockout (K S0 H u d q disc : ℝ) (opttype : String) (N i j : ℕ)
    (hiN : i < N) (hji : j ≤ i) :
    (barrierSlowState K S0 H u d q disc N opttype i).getD j 0
      = (if H ≤ S0 * u ^ j * d ^ (i - j) then 0
         else disc * (q * (barrierSlowState K S0 H u d q disc N opttype (i+1)).getD (j+1) 0
          + (1 - q) * (barrierSlowState K S0 H u d q disc N opttype (i+1)).getD j 0))
    ∧ (barrierFastState K S0 H u d q disc N opttype i).getD j 0
      = (if H ≤ S0 * u ^ j * d ^ (i - j) then 0
         else disc * (q * (barrierFastState K S0 H u d q disc N opttype (i+1)).getD (j+1) 0
          + (1 - q) * (barrierFastState K S0 H u d q disc N opttype (i+1)).getD j 0)) := by
  have hkey : barVal K S0 H u d q disc opttype N (N - i) j
      = (if H ≤ S0 * u ^ j * d ^ (i - j) then 0
         else disc * (q * barVal K S0 H u d q disc opttype N (N - (i+1)) (j+1)
          + (1 - q) * barVal K S0 H u d q disc opttype N (N - (i+1)) j)) := by
    rw [show N - i = N - (i+1) + 1 from by omega]
    simp only [barVal]
    rw [show N - (N - (i+1) + 1) = i from by omega]
  constructor
  · rw [(barrierSlowState_char K S0 H u d q disc opttype N i (by omega)).2 j (by omega),
      (barrierSlowState_char K S0 H u d q disc opttype N (i+1) (by omega)).2 (j+1) (by omega),
      (barrierSlowState_char K S0 H u d q disc opttype N (i+1) (by omega)).2 j (by omega)]
    exact hkey
  · rw [barrierFastState_char K S0 H u d q disc opttype N i (by omega),
      barrierFastState_char K S0 H u d q disc opttype N (i+1) (by omega),
      getD_range_map _ _ _ (by omega), getD_range_map _ _ _ (by omega),
      getD_range_map _ _ _ (by omega)]
    exact hkey

/-- C4 (amended): American price ≥ European price holds for option kind Call.
The vanilla pricer binomial_tree_slow ignores its opttype argument and always
prices a call, so the comparison is stated against american_slow_tree with any
opttype other than "P" (which prices the call); as originally stated, with
opttype "P" on both sides, the claim fails (see the counterexample). -/
theorem C4_american_ge_european_call (K T S0 r : ℝ) (N : ℕ) (u d : ℝ) (opt opt2 : String)
    (hN : 1 ≤ N) (hd : d ≠ 0) (hopt : opt2 ≠ "P")
    (hq0 : 0 ≤ (Real.exp (r * (T / N)) - d) / (u - d))
    (hq1 : (Real.exp (r * (T / N)) - d) / (u - d) ≤ 1) :
    (binomial_tree_slow K T S0 r N u d opt).getD 0
      ≤ (american_slow_tree K T S0 r N u d opt2).getD 0 := by
  unfold binomial_tree_slow american_slow_tree
  rw [if_neg (by omega), if_neg (by omega)]
  simp only [Option.getD_some]
  rw [binomial_tree_slow_val_root _ _ _ _ _ _ _ hd, american_slow_tree_val_root]
  exact euVal_le_amVal _ _ _ _ _ _ _ _ hq0 hq1 (Real.exp_pos _).le hopt N 0

/-- C5: the up-and-out barrier call price is at most the vanilla European call
price on the same parameters (the vanilla pricer prices the call whatever its
opttype argument says), under the documented precondition 0 ≤ q ≤ 1 on the
derived risk-neutral probability and N ≥ 1, d ≠ 0. -/
theorem C5_barrier_le_vanilla (K T S0 H r : ℝ) (N : ℕ) (u d : ℝ) (opt : String)
    (hN : 1 ≤ N) (hd : d ≠ 0)
    (hq0 : 0 ≤ (Real.exp (r * (T / N)) - d) / (u - d))
    (hq1 : (Real.exp (r * (T / N)) - d) / (u - d) ≤ 1) :
    (barrier_tree_slow K T S0 H r N u d ("C")).getD 0
      ≤ (binomial_tree_slow K T S0 r N u d opt).getD 0 := by
  unfold barrier_tree_slow binomial_tree_slow
  rw [if_neg (by omega), if_neg (by omega)]
  simp only [Option.getD_some]
  rw [binomial_tree_slow_val_root _ _ _ _ _ _ _ hd, barrier_tree_slow_val_root]
  exact barVal_le_euVal _ _ _ _ _ _ _ _ hq0 hq1 (Real.exp_pos _).le N 0

/-- C6 (amended): with steps N = 0 the pricers do not return the terminal
payoff at the spot; the source raises ZeroDivisionError computing dt = T/N
(modelled by none), so no value at all is returned. -/
theorem C6_steps_zero_no_value (K T S0 r u d : ℝ) (opt : String) :
    binomial_tree_slow K T S0 r 0 u d opt = none
    ∧ binomial_tree_fast K T S0 r 0 u d opt = none :=
  ⟨rfl, rfl⟩

/-- C7 (amended): the pricers perform no calibration check whatsoever: for any
u ≤ d (an arbitrage-admitting calibration) and any N ≥ 1 they still return a
numeric price instead of raising an InvalidCalibration error (which does not
exist in the source). -/
theorem C7_no_calibration_check (K T S0 H r u d : ℝ) (N : ℕ) (opt : String)
    (hud : u ≤ d) (hN : 1 ≤ N) :
    (binomial_tree_slow K T S0 r N u d opt).isSome = true
    ∧ (barrier_tree_slow K T S0 H r N u d opt).isSome = true := by
  unfold binomial_tree_slow barrier_tree_slow
  rw [if_neg (by omega), if_neg (by omega)]
  exact ⟨rfl, rfl⟩

/-- C8 (amended): the European pricers ignore the optionKind argument
entirely: for every opttype they price the Call payoff max(S-K,0) at the
terminal layer (they agree with the spec-described pricer fixed to Call), and
the fast pricer likewise returns the same value for every opttype. -/
theorem C8_euro_always_call (K T S0 r u d : ℝ) (N : ℕ) (opt : String) :
    binomial_tree_slow K T S0 r N u d opt = binomial_tree_slow_spec K T S0 r N u d ("C")
    ∧ binomial_tree_fast K T S0 r N u d opt = binomial_tree_fast K T S0 r N u d ("C") := by
  constructor
  · unfold binomial_tree_slow binomial_tree_slow_spec
    rw [spec_val_call]
  · rfl

/-- C9: under the precondition 0 < q < 1 on the derived risk-neutral
probability (so the discount factor, an exponential, is positive), the
layer-i contract array of the layer-wise American and barrier pricers has
exactly i+1 entries, all non-negative, at every layer i ≤ N. -/
theorem C9_layer_shape_and_sign (K T S0 H r u d q disc : ℝ) (opttype : String) (N i : ℕ)
    (hq : q = (Real.exp (r * (T / N)) - d) / (u - d))
    (hdisc : disc = Real.exp (-(r * (T / N))))
    (hq0 : 0 < q) (hq1 : q < 1) (hi : i ≤ N) :
    (americanFastState K S0 u d q disc N opttype i).length = i + 1
    ∧ (∀ x ∈ americanFastState K S0 u d q disc N opttype i, 0 ≤ x)
    ∧ (barrierFastState K S0 H u d q disc N opttype i).length = i + 1
    ∧ (∀ x ∈ barrierFastState K S0 H u d q disc N opttype i, 0 ≤ x) := by
  have hd0 : 0 ≤ disc := by rw [hdisc]; exact (Real.exp_pos _).le
  rw [americanFastState_char K S0 u d q disc opttype N i hi,
    barrierFastState_char K S0 H u d q disc opttype N i hi]
  refine ⟨by simp, ?_, by simp, ?_⟩
  · intro x hx
    rw [List.mem_map] at hx
    obtain ⟨a, _, rfl⟩ := hx
    exact amVal_nonneg K S0 u d q disc opttype N hq0.le hq1.le hd0 _ _
  · intro x hx
    rw [List.mem_map] at hx
    obtain ⟨a, _, rfl⟩ := hx
    exact barVal_nonneg K S0 H u d q disc opttype N hq0.le hq1.le hd0 _ _

/-- C10: the option-kind argument is dispatched by a single string comparison
with a silent fallback and is never validated: every opttype other than "P"
makes the American pricers return the American Call price, and every opttype
other than "C" makes barrier_tree_slow return the barrier Put price. -/
theorem C10_opttype_fallback (K T S0 H r u d : ℝ) (N : ℕ) (opt opt2 : String)
    (hP : opt ≠ "P") (hC : opt2 ≠ "C") :
    american_slow_tree K T S0 r N u d opt = american_slow_tree K T S0 r N u d ("C")
    ∧ american_fast_tree K T S0 r N u d opt = american_fast_tree K T S0 r N u d ("C")
    ∧ barrier_tree_slow K T S0 H r N u d opt2 = barrier_tree_slow K T S0 H r N u d ("P") := by
  refine ⟨?_, ?_, ?_⟩
  · unfold american_slow_tree
    rw [american_slow_tree_val_opt _ _ _ _ _ _ _ _ hP]
  · unfold american_fast_tree
    rw [american_fast_tree_val_opt _ _ _ _ _ _ _ _ hP]
  · unfold barrier_tree_slow
    rw [barrier_tree_slow_val_opt _ _ _ _ _ _ _ _ _ hC]

/-!  Counterexamples for the corrected claims, at concrete inputs with r = 0
(so q = (1 - d)/(u - d) and disc = 1 after Real.exp_zero). -/

/-- C4 (counterexample): with identical parameters and option kind Put
(K=1, T=1, S0=4, r=0, N=1, u=2, d=1/2) the American pricer returns the put
price 0 while the vanilla pricer — which ignores its opttype argument and
always prices the call — returns 3, so the American price is strictly below
the European price on the same parameters and option kind, refuting the claim
as stated. -/
theorem C4_counterexample :
    american_slow_tree 1 1 4 0 1 2 (1/2) ("P") = some 0
    ∧ binomial_tree_slow 1 1 4 0 1 2 (1/2) ("P") = some 3
    ∧ ¬((3:ℝ) ≤ 0) := by
  refine ⟨?_, ?_, by norm_num⟩
  · unfold american_slow_tree american_slow_tree_val american_slow_step american_terminal_slow
    norm_num [descList, List.range_succ, updLoop, Real.exp_zero, max_def]
  · unfold binomial_tree_slow binomial_tree_slow_val binomial_slow_step binomial_slow_terminal
    norm_num [descList, List.range_succ, stepMulList, updLoop, Real.exp_zero, max_def]

/-- C6 (counterexample): called with steps N = 0 (K=1, T=1, S0=2, r=0, u=2,
d=1/2, Call), the pricer does not return the terminal payoff max(S0-K,0) = 1
at the spot: it returns no value at all (the source raises ZeroDivisionError
computing dt = T/N). -/
theorem C6_counterexample :
    binomial_tree_slow 1 1 2 0 0 2 (1/2) ("C") = none
    ∧ binomial_tree_slow 1 1 2 0 0 2 (1/2) ("C") ≠ some (max ((2:ℝ) - 1) 0) := by
  refine ⟨rfl, ?_⟩
  intro h
  simp [binomial_tree_slow] at h

/-- C7 (counterexample): with the arbitrage-admitting calibration u = 1/2 ≤
d = 2 (K=1, T=1, S0=1, r=0, N=1), the pricer raises nothing and returns the
numeric price 1/3, refuting the claim that u ≤ d raises InvalidCalibration
rather than returning a number. -/
theorem C7_counterexample :
    ((1:ℝ)/2) ≤ 2 ∧ binomial_tree_slow 1 1 1 0 1 (1/2) 2 ("C") = some (1/3) := by
  refine ⟨by norm_num, ?_⟩
  unfold binomial_tree_slow binomial_tree_slow_val binomial_slow_step binomial_slow_terminal
  norm_num [descList, List.range_succ, stepMulList, updLoop, Real.exp_zero, max_def]

/-- C8 (counterexample): with opttype selecting Put (K=2, T=1, S0=1, r=0, N=1,
u=2, d=1/2), the European pricer returns 0 — the call-payoff price — while the
spec-described pricer, whose terminal payoff is max(K-S,0) for a put, returns
1; the code's terminal payoff for Put is therefore not max(K-S,0). -/
theorem C8_counterexample :
    binomial_tree_slow 2 1 1 0 1 2 (1/2) ("P") = some 0
    ∧ binomial_tree_slow_spec 2 1 1 0 1 2 (1/2) ("P") = some 1
    ∧ some (0:ℝ) ≠ some 1 := by
  refine ⟨?_, ?_, by norm_num⟩
  · unfold binomial_tree_slow binomial_tree_slow_val binomial_slow_step binomial_slow_terminal
    norm_num [descList, List.range_succ, stepMulList, updLoop, Real.exp_zero, max_def]
  · unfold binomial_tree_slow_spec binomial_tree_slow_spec_val binomial_slow_step
      binomial_slow_spec_terminal
    norm_num [descList, List.range_succ, stepMulList, updLoop, Real.exp_zero, max_def]

/-!  Witnesses: each theorem with hypotheses applied at a concrete input. -/

/-- witness for C1 at K=1, T=1, S0=1, H=3, r=0, N=1, u=2, d=1/2. -/
theorem C1_witness :
    1 ≤ 1 ∧ ((1:ℝ)/2 ≠ 0)
    ∧ (binomial_tree_slow 1 1 1 0 1 2 (1/2) ("C") = binomial_tree_fast 1 1 1 0 1 2 (1/2) ("C")
      ∧ american_slow_tree 1 1 1 0 1 2 (1/2) ("P") = american_fast_tree 1 1 1 0 1 2 (1/2) ("P")
      ∧ barrier_tree_slow 1 1 1 3 0 1 2 (1/2) ("C") = barrier_tree_fast 1 1 1 3 0 1 2 (1/2) ("C")) :=
  ⟨le_refl 1, by norm_num,
    C1_slow_fast_agree 1 1 1 3 0 1 2 (1/2) ("C") ("P") ("C") (le_refl 1) (by norm_num)⟩

/-- witness for C2 at K=1, T=1, S0=1, r=0, N=1, u=2, d=1/2, Put, node (0,0),
where q = 1/3 and disc = 1. -/
theorem C2_witness :
    ((1:ℝ)/3 = (Real.exp (0 * ((1:ℝ) / ((1:ℕ):ℝ))) - 1/2) / (2 - 1/2))
    ∧ ((1:ℝ) = Real.exp (-(0 * ((1:ℝ) / ((1:ℕ):ℝ)))))
    ∧ (0:ℝ) < 1/3 ∧ (1:ℝ)/3 < 1 ∧ 0 < 1 ∧ 0 ≤ 0
    ∧ ((americanSlowState 1 1 2 (1/2) (1/3) 1 1 ("P") 0).getD 0 0
        = max ((1:ℝ) * (1/3 * (americanSlowState 1 1 2 (1/2) (1/3) 1 1 ("P") (0+1)).getD (0+1) 0
            + (1 - 1/3) * (americanSlowState 1 1 2 (1/2) (1/3) 1 1 ("P") (0+1)).getD 0 0))
          (if ("P":String) = "P" then max 0 (1 - 1 * 2 ^ 0 * (1/2:ℝ) ^ (0 - 0))
           else max 0 (1 * 2 ^ 0 * (1/2:ℝ) ^ (0 - 0) - 1))
      ∧ (americanFastState 1 1 2 (1/2) (1/3) 1 1 ("P") 0).getD 0 0
        = max ((1:ℝ) * (1/3 * (americanFastState 1 1 2 (1/2) (1/3) 1 1 ("P") (0+1)).getD (0+1) 0
            + (1 - 1/3) * (americanFastState 1 1 2 (1/2) (1/3) 1 1 ("P") (0+1)).getD 0 0))
          (if ("P":String) = "P" then max 0 (1 - 1 * 2 ^ 0 * (1/2:ℝ) ^ (0 - 0))
           else max 0 (1 * 2 ^ 0 * (1/2:ℝ) ^ (0 - 0) - 1))) :=
  ⟨by norm_num [Real.exp_zero], by norm_num [Real.exp_zero], by norm_num, by norm_num,
    by norm_num, le_refl 0,
    C2_american_node_value 1 1 1 0 2 (1/2) (1/3) 1 ("P") 1 0 0
      (by norm_num [Real.exp_zero]) (by norm_num [Real.exp_zero])
      (by norm_num) (by norm_num) (by norm_num) (le_refl 0)⟩

/-- witness for C3 at K=1, S0=1, H=3, u=2, d=1/2, q=1/3, disc=1, N=1,
Call, node (0,0). -/
theorem C3_witness :
    0 < 1 ∧ 0 ≤ 0
    ∧ ((barrierSlowState 1 1 3 2 (1/2) (1/3) 1 1 ("C") 0).getD 0 0
        = (if (3:ℝ) ≤ 1 * 2 ^ 0 * (1/2:ℝ) ^ (0 - 0) then 0
           else (1:ℝ) * (1/3 * (barrierSlowState 1 1 3 2 (1/2) (1/3) 1 1 ("C") (0+1)).getD (0+1) 0
            + (1 - 1/3) * (barrierSlowState 1 1 3 2 (1/2) (1/3) 1 1 ("C") (0+1)).getD 0 0))
      ∧ (barrierFastState 1 1 3 2 (1/2) (1/3) 1 1 ("C") 0).getD 0 0
        = (if (3:ℝ) ≤ 1 * 2 ^ 0 * (1/2:ℝ) ^ (0 - 0) then 0
           else (1:ℝ) * (1/3 * (barrierFastState 1 1 3 2 (1/2) (1/3) 1 1 ("C") (0+1)).getD (0+1) 0
            + (1 - 1/3) * (barrierFastState 1 1 3 2 (1/2) (1/3) 1 1 ("C") (0+1)).getD 0 0))) :=
  ⟨by norm_num, le_refl 0,
    C3_barrier_node_knockout 1 1 3 2 (1/2) (1/3) 1 ("C") 1 0 0 (by norm_num) (le_refl 0)⟩

/-- witness for C4 (amended) at K=1, T=1, S0=1, r=0, N=1, u=2, d=1/2, both
pricers on the Call. -/
theorem C4_witness :
    1 ≤ 1 ∧ ((1:ℝ)/2 ≠ 0) ∧ (("C":String) ≠ "P")
    ∧ (0:ℝ) ≤ (Real.exp (0 * ((1:ℝ) / ((1:ℕ):ℝ))) - 1/2) / (2 - 1/2)
    ∧ (Real.exp (0 * ((1:ℝ) / ((1:ℕ):ℝ))) - 1/2) / (2 - 1/2) ≤ 1
    ∧ (binomial_tree_slow 1 1 1 0 1 2 (1/2) ("C")).getD 0
        ≤ (american_slow_tree 1 1 1 0 1 2 (1/2) ("C")).getD 0 :=
  ⟨le_refl 1, by norm_num, by decide, by norm_num [Real.exp_zero], by norm_num [Real.exp_zero],
    C4_american_ge_european_call 1 1 1 0 1 2 (1/2) ("C") ("C") (le_refl 1) (by norm_num)
      (by decide) (by norm_num [Real.exp_zero]) (by norm_num [Real.exp_zero])⟩

/-- witness for C5 at K=1, T=1, S0=1, H=5, r=0, N=1, u=2, d=1/2. -/
theorem C5_witness :
    1 ≤ 1 ∧ ((1:ℝ)/2 ≠ 0)
    ∧ (0:ℝ) ≤ (Real.exp (0 * ((1:ℝ) / ((1:ℕ):ℝ))) - 1/2) / (2 - 1/2)
    ∧ (Real.exp (0 * ((1:ℝ) / ((1:ℕ):ℝ))) - 1/2) / (2 - 1/2) ≤ 1
    ∧ (barrier_tree_slow 1 1 1 5 0 1 2 (1/2) ("C")).getD 0
        ≤ (binomial_tree_slow 1 1 1 0 1 2 (1/2) ("C")).getD 0 :=
  ⟨le_refl 1, by norm_num, by norm_num [Real.exp_zero], by norm_num [Real.exp_zero],
    C5_barrier_le_vanilla 1 1 1 5 0 1 2 (1/2) ("C") (le_refl 1) (by norm_num)
      (by norm_num [Real.exp_zero]) (by norm_num [Real.exp_zero])⟩

/-- witness for C7 (amended) at u = 1/2 ≤ d = 2, N = 1. -/
theorem C7_witness :
    ((1:ℝ)/2) ≤ 2 ∧ 1 ≤ 1
    ∧ (binomial_tree_slow 1 1 1 0 1 (1/2) 2 ("C")).isSome = true
    ∧ (barrier_tree_slow 1 1 1 3 0 1 (1/2) 2 ("C")).isSome = true :=
  ⟨by norm_num, le_refl 1,
    (C7_no_calibration_check 1 1 1 3 0 (1/2) 2 1 ("C") (by norm_num) (le_refl 1)).1,
    (C7_no_calibration_check 1 1 1 3 0 (1/2) 2 1 ("C") (by norm_num) (le_refl 1)).2⟩

/-- witness for C9 at K=1, T=1, S0=1, H=3, r=0, N=1, u=2, d=1/2, Put, layer 1,
where q = 1/3 and disc = 1. -/
theorem C9_witness :
    ((1:ℝ)/3 = (Real.exp (0 * ((1:ℝ) / ((1:ℕ):ℝ))) - 1/2) / (2 - 1/2))
    ∧ ((1:ℝ) = Real.exp (-(0 * ((1:ℝ) / ((1:ℕ):ℝ)))))
    ∧ (0:ℝ) < 1/3 ∧ (1:ℝ)/3 < 1 ∧ 1 ≤ 1
    ∧ ((americanFastState 1 1 2 (1/2) (1/3) 1 1 ("P") 1).length = 1 + 1
      ∧ (∀ x ∈ americanFastState 1 1 2 (1/2) (1/3) 1 1 ("P") 1, 0 ≤ x)
      ∧ (barrierFastState 1 1 3 2 (1/2) (1/3) 1 1 ("P") 1).length = 1 + 1
      ∧ (∀ x ∈ barrierFastState 1 1 3 2 (1/2) (1/3) 1 1 ("P") 1, 0 ≤ x)) :=
  ⟨by norm_num [Real.exp_zero], by norm_num [Real.exp_zero], by norm_num, by norm_num, le_refl 1,
    C9_layer_shape_and_sign 1 1 1 3 0 2 (1/2) (1/3) 1 ("P") 1 1
      (by norm_num [Real.exp_zero]) (by norm_num [Real.exp_zero])
      (by norm_num) (by norm_num) (le_refl 1)⟩

/-- witness for C10 with the invalid option kind "Z". -/
theorem C10_witness :
    (("Z":String) ≠ "P") ∧ (("Z":String) ≠ "C")
    ∧ (american_slow_tree 1 1 1 0 1 2 (1/2) ("Z") = american_slow_tree 1 1 1 0 1 2 (1/2) ("C")
      ∧ american_fast_tree 1 1 1 0 1 2 (1/2) ("Z") = american_fast_tree 1 1 1 0 1 2 (1/2) ("C")
      ∧ barrier_tree_slow 1 1 1 3 0 1 2 (1/2) ("Z") = barrier_tree_slow 1 1 1 3 0 1 2 (1/2) ("P")) :=
  ⟨by decide, by decide,
    C10_opttype_fallback 1 1 1 3 0 2 (1/2) 1 ("Z") ("Z") (by decide) (by decide)⟩

end

end BinomialPricing
